import Mathlib

/-
Verification of flatbrain (src/bin/index.js, v2.1.0): the directory walk with
its exclusion sources, the flattened-name computation, the toTxt extension
remapping of flattenProject, the concatenation loop of concatenateFiles, and
the default lockfile wiring of the two CLI commands.

Modelling conventions:
- The filesystem is a finite tree of nodes; directory listings appear in
  readdirSync order.  A file node carries the result of readFileSync on it
  (content, or the message of the thrown error); an unlistable directory node
  carries the message of the error readdirSync throws on it.
- Paths are represented root-relative, as lists of segments.  The walk in the
  source pushes absolute paths and later recomputes the root-relative path
  with path.relative; since the root is fixed for a run, the model works with
  the root-relative segments directly, and joinPath renders the path string.
- The separator path.sep is fixed to the POSIX slash.
- The ignore instance built by the ignore library from .gitignore is an
  external dependency, so it is modelled as an arbitrary predicate
  ig : String -> Bool standing for ig.ignores(relativePath).
- The Set objects for excludeDirs and excludeFiles are modelled as lists
  queried with List.contains.
-/

set_option maxHeartbeats 1000000

namespace Flatbrain

/-- joinPath renders a root-relative segment list as the path string produced
    by path.join and path.relative: segments joined with the separator. -/
def joinPath : List String → String
  | [] => ""
  | [s] => s
  | s :: rest => s ++ "/" ++ joinPath rest

/-- The per-character substitution performed by the global regex replace in
    getFlattenedFileName: each separator character becomes a caret. -/
def sepToCaret (c : Char) : Char := if c = '/' then '^' else c

/-- getFlattenedFileName from src/bin/index.js applied to the root-relative
    path: every path separator character is replaced by a caret. -/
def getFlattenedFileName (relative : String) : String :=
  ⟨relative.data.map sepToCaret⟩

/-- Model of path.extname on a name without separators (flattened names have
    none): the suffix starting at the last dot, except when there is no dot or
    the only role of the dot is as first character, in which case the
    extension is empty. -/
def extname (s : String) : String :=
  let rev := s.data.reverse
  let after := rev.takeWhile (fun c => c != '.')
  if after.length = rev.length then ""
  else if after.length + 1 = rev.length then ""
  else ⟨'.' :: after.reverse⟩

/-- Model of the javascript expression s.slice(0, -n): for n = 0 the bound
    -0 collapses to 0 and the result is empty; otherwise the last n
    characters are dropped. -/
def jsSliceNegEnd (s : String) (n : Nat) : String :=
  if n = 0 then "" else ⟨s.data.take (s.data.length - n)⟩

/-- The per-file renaming step of the copy loop in flattenProject: flatten the
    relative path, and if the extension of the flattened name is one of the
    configured toTxt extensions, replace it with .txt. -/
def flattenOutputName (toTxtExtensions : List String) (relative : String) : String :=
  let flattenedFileName := getFlattenedFileName relative
  let ext := extname flattenedFileName
  if toTxtExtensions.contains ext then
    jsSliceNegEnd flattenedFileName ext.length ++ ".txt"
  else flattenedFileName

mutual
/-- A filesystem node.  file carries the readFileSync result for the node,
    unlistableDir a directory on which readdirSync throws (carrying the error
    message), symlink a symbolic-link entry (Dirent.isDirectory and
    Dirent.isFile are both false on it, since readdirSync with withFileTypes
    does not follow links). -/
inductive FSNode : Type where
  | file : Except String String → FSNode
  | dir : EntryList → FSNode
  | unlistableDir : String → FSNode
  | symlink : FSNode

/-- A directory listing, in readdirSync order: entry name paired with the
    entry node. -/
inductive EntryList : Type where
  | nil : EntryList
  | cons : String → FSNode → EntryList → EntryList
end

/-- Dirent.isDirectory: true for directories, including unlistable ones. -/
def FSNode.isDirectory : FSNode → Bool
  | .dir _ => true
  | .unlistableDir _ => true
  | _ => false

/-- Dirent.isFile: true only for regular files. -/
def FSNode.isFile : FSNode → Bool
  | .file _ => true
  | _ => false

/-- The names of a directory listing, in order. -/
def entryNames : EntryList → List String
  | .nil => []
  | .cons n _ rest => n :: entryNames rest

/-- First entry with the given name, if any. -/
def lookupEntry : EntryList → String → Option FSNode
  | .nil, _ => none
  | .cons n node rest, m => if n = m then some node else lookupEntry rest m

/-- No duplicate strings in a list. -/
def nodupBool : List String → Bool
  | [] => true
  | x :: xs => !xs.contains x && nodupBool xs

mutual
/-- Well-formedness of a filesystem tree: in every directory the entry names
    are pairwise distinct (true of every real directory). -/
def wellFormed : FSNode → Bool
  | .dir entries => nodupBool (entryNames entries) && wfEntries entries
  | _ => true

/-- All nodes of a listing are well formed. -/
def wfEntries : EntryList → Bool
  | .nil => true
  | .cons _ node rest => wellFormed node && wfEntries rest
end

mutual
/-- Size of a node, for induction over trees. -/
def nodeSize : FSNode → Nat
  | .dir es => 1 + entriesSize es
  | _ => 1

/-- Size of a listing, for induction over trees. -/
def entriesSize : EntryList → Nat
  | .nil => 0
  | .cons _ node rest => 1 + nodeSize node + entriesSize rest
end

mutual
/-- walkDirectory from src/bin/index.js, called on the node at dirPath
    (root-relative segments).  readdirSync on an unlistable directory throws,
    which the source does not catch, so the whole walk aborts: this is the
    error case of the Except. -/
def walkDirectory (node : FSNode) (dirPath : List String)
    (fileList : List (List String)) (ig : String → Bool)
    (excludeDirs excludeFiles : List String) :
    Except String (List (List String)) :=
  match node with
  | .dir entries => walkEntries entries dirPath fileList ig excludeDirs excludeFiles
  | .unlistableDir msg => .error msg
  | .file _ => .error "ENOTDIR: not a directory, scandir"
  | .symlink => .error "ENOTDIR: not a directory, scandir"

/-- The entry loop of walkDirectory: structural skips for the names flatbrain
    and .git, then name-based exclusion (excludeDirs only when the entry is a
    directory, excludeFiles only when it is a regular file), then the
    ignore-pattern check on the root-relative path, then recursion into
    directories and collection of every other entry. -/
def walkEntries (entries : EntryList) (dirPath : List String)
    (fileList : List (List String)) (ig : String → Bool)
    (excludeDirs excludeFiles : List String) :
    Except String (List (List String)) :=
  match entries with
  | .nil => .ok fileList
  | .cons name node rest =>
    if name = "flatbrain" then
      walkEntries rest dirPath fileList ig excludeDirs excludeFiles
    else if name = ".git" then
      walkEntries rest dirPath fileList ig excludeDirs excludeFiles
    else
      let relativePath := dirPath ++ [name]
      if node.isDirectory && excludeDirs.contains name then
        walkEntries rest dirPath fileList ig excludeDirs excludeFiles
      else if node.isFile && excludeFiles.contains name then
        walkEntries rest dirPath fileList ig excludeDirs excludeFiles
      else if ig (joinPath relativePath) then
        walkEntries rest dirPath fileList ig excludeDirs excludeFiles
      else if node.isDirectory then
        match walkDirectory node relativePath fileList ig excludeDirs excludeFiles with
        | .error e => .error e
        | .ok newList => walkEntries rest dirPath newList ig excludeDirs excludeFiles
      else
        walkEntries rest dirPath (fileList ++ [relativePath]) ig excludeDirs excludeFiles
end

/-- Resolve a root-relative segment list in a tree, descending through
    directory listings. -/
def resolveNode : FSNode → List String → Option FSNode
  | node, [] => some node
  | .dir entries, n :: rest =>
    match lookupEntry entries n with
    | some nd => resolveNode nd rest
    | none => none
  | _, _ :: _ => none

/-- readFileSync on a root-relative path of the tree: the stored result for a
    file node, a thrown error otherwise. -/
def readFileAt (root : FSNode) (q : List String) : Except String String :=
  match resolveNode root q with
  | some (.file r) => r
  | some _ => .error "EISDIR: illegal operation on a directory, read"
  | none => .error "ENOENT: no such file or directory"

/-- Model of the javascript test content.endsWith(newline): the last character
    is a newline. -/
def endsWithNewline (s : String) : Bool := s.data.getLast? = some '\n'

/-- The writes performed for one file in the loop of concatenateFiles: the
    header line (preceded by a blank-line separator), then the content with an
    enforced trailing newline, or the inline error marker when readFileSync
    throws. -/
def fileBlock (root : FSNode) (q : List String) : String :=
  "\n=== " ++ joinPath q ++ " ===\n" ++
    match readFileAt root q with
    | .ok content => content ++ (if endsWithNewline content then "" else "\n")
    | .error msg => "[Error reading file: " ++ msg ++ "]\n"

/-- The file loop of concatenateFiles, threading the text written to the
    stream so far. -/
def concatLoop (root : FSNode) : List (List String) → String → String
  | [], acc => acc
  | q :: rest, acc => concatLoop root rest (acc ++ fileBlock root q)

/-- concatenateFiles from src/bin/index.js, restricted to the text it writes
    to the output stream for a given walked file list. -/
def concatenateFiles (root : FSNode) (filePaths : List (List String)) : String :=
  concatLoop root filePaths ""

/-- DEFAULT_LOCKFILES from src/bin/index.js. -/
def DEFAULT_LOCKFILES : List String :=
  ["yarn.lock", "package-lock.json", "pnpm-lock.yaml"]

/-- The excludeFiles set built by the action of the flatten command:
    the default lockfiles unioned with the user exclusions. -/
def flattenActionExcludeFiles (userExcludeFiles : List String) : List String :=
  DEFAULT_LOCKFILES ++ userExcludeFiles

/-- The excludeFiles set built by the action of the concat command:
    the default lockfiles unioned with the user exclusions. -/
def concatActionExcludeFiles (userExcludeFiles : List String) : List String :=
  DEFAULT_LOCKFILES ++ userExcludeFiles

/-- The checks the walk applies to every entry independent of its kind: not a
    structural skip, and not matched by the ignore predicate on its
    root-relative path. -/
def passCommon (ig : String → Bool) (p : List String) (n : String) : Bool :=
  !(n == "flatbrain") && !(n == ".git") && !(ig (joinPath (p ++ [n])))

/-- allowedPath characterises the root-relative paths the walk can emit below
    the node at p: every intermediate segment is a directory entry that passed
    the structural, excludeDirs and ignore checks, and the final segment is a
    non-directory entry that passed the structural, excludeFiles (consulted
    only for regular files) and ignore checks. -/
def allowedPath (ig : String → Bool) (exD exF : List String) :
    FSNode → List String → List String → Bool
  | _, _, [] => false
  | node, p, n :: rest =>
    match node with
    | .dir entries =>
      (match lookupEntry entries n with
       | none => false
       | some nd =>
         passCommon ig p n &&
           (match rest with
            | [] => !nd.isDirectory && !(nd.isFile && exF.contains n)
            | _ :: _ => nd.isDirectory && !(exD.contains n) &&
                allowedPath ig exD exF nd (p ++ [n]) rest))
    | _ => false

/-- Modelled from the wording of the spec, for comparison with the source
    function: flattening joins the path segments with the caret delimiter
    (a/b/c.ext yields a^b^c.ext). -/
def specCaretJoin : List String → String
  | [] => ""
  | [s] => s
  | s :: rest => s ++ "^" ++ specCaretJoin rest

/-- A root holding a directory a with a file b.txt inside, next to a file
    literally named a^b.txt: the collision example for flattened names. -/
def collisionTree : FSNode :=
  .dir (.cons "a" (.dir (.cons "b.txt" (.file (.ok "x")) .nil))
       (.cons "a^b.txt" (.file (.ok "y")) .nil))

/-- The root of testable property 6 of the spec: exactly src/a.js containing
    hello and b.txt containing world, neither ending in a newline. -/
def concatExampleTree : FSNode :=
  .dir (.cons "src" (.dir (.cons "a.js" (.file (.ok "hello")) .nil))
       (.cons "b.txt" (.file (.ok "world")) .nil))

/-- A root with one unreadable and one readable file, for the per-file error
    path of concatenateFiles. -/
def errorFileTree : FSNode :=
  .dir (.cons "bad.txt" (.file (.error "EACCES: permission denied, open"))
       (.cons "ok.txt" (.file (.ok "fine\n")) .nil))

/-- A root whose only entry is a symbolic link. -/
def symlinkTree : FSNode :=
  .dir (.cons "link" .symlink .nil)

/-- A root holding an excluded directory node_modules with a deep descendant
    that matches no exclusion rule itself, next to an ordinary file. -/
def excludedDirTree : FSNode :=
  .dir (.cons "node_modules" (.dir (.cons "pkg"
          (.dir (.cons "deep.js" (.file (.ok "d")) .nil)) .nil))
       (.cons "keep.js" (.file (.ok "k")) .nil))

/-- A root holding a yarn.lock regular file next to an ordinary source file. -/
def lockfileTree : FSNode :=
  .dir (.cons "index.js" (.file (.ok "i"))
       (.cons "yarn.lock" (.file (.ok "lock")) .nil))

/-- Mapping sepToCaret over characters that contain no separator changes
    nothing. -/
theorem map_sepToCaret_of_no_sep (l : List Char) (h : '/' ∉ l) :
    l.map sepToCaret = l := by
  induction l with
  | nil => rfl
  | cons c cs ih =>
    have hc : c ≠ '/' := fun hc => h (by simp [hc])
    have hcs : '/' ∉ cs := fun hm => h (List.mem_cons_of_mem c hm)
    simp [sepToCaret, hc, ih hcs]

/-- Mapping sepToCaret is injective on characters lists free of the caret. -/
theorem map_sepToCaret_inj : ∀ (l₁ l₂ : List Char), '^' ∉ l₁ → '^' ∉ l₂ →
    l₁.map sepToCaret = l₂.map sepToCaret → l₁ = l₂ := by
  intro l₁
  induction l₁ with
  | nil =>
    intro l₂ _ _ h
    cases l₂ with
    | nil => rfl
    | cons b bs => simp at h
  | cons a as ih =>
    intro l₂ h₁ h₂ h
    cases l₂ with
    | nil => simp at h
    | cons b bs =>
      simp only [List.map_cons, List.cons.injEq] at h
      obtain ⟨hab, hrest⟩ := h
      have ha : a ≠ '^' := fun hc => h₁ (by simp [hc])
      have hb : b ≠ '^' := fun hc => h₂ (by simp [hc])
      have head : a = b := by
        by_cases ha2 : a = '/' <;> by_cases hb2 : b = '/'
        · rw [ha2, hb2]
        · rw [sepToCaret, sepToCaret, if_pos ha2, if_neg hb2] at hab
          exact absurd hab.symm hb
        · rw [sepToCaret, sepToCaret, if_neg ha2, if_pos hb2] at hab
          exact absurd hab ha
        · rwa [sepToCaret, sepToCaret, if_neg ha2, if_neg hb2] at hab
      have tail : as = bs :=
        ih bs (fun hm => h₁ (List.mem_cons_of_mem a hm))
          (fun hm => h₂ (List.mem_cons_of_mem b hm)) hrest
      rw [head, tail]

/-- The character data of a flattened name is the separator-substituted data
    of the relative path. -/
theorem getFlattenedFileName_data (s : String) :
    (getFlattenedFileName s).data = s.data.map sepToCaret := rfl

/-- C3: for every file included in a run, the flattened output name equals
    the root-relative path with every path separator replaced by a caret
    (a/b/c.ext yields a^b^c.ext), and a root-level file with no separators
    flattens to itself unchanged; stated for paths whose segments are free of
    the separator character, as every real directory entry name is. -/
theorem C3_flatten_replaces_separators :
    (∀ segs : List String, (∀ s ∈ segs, '/' ∉ s.data) →
      getFlattenedFileName (joinPath segs) = specCaretJoin segs) ∧
    (∀ f : String, '/' ∉ f.data → getFlattenedFileName f = f) := by
  have single : ∀ f : String, '/' ∉ f.data → getFlattenedFileName f = f := by
    intro f hf
    exact String.ext (map_sepToCaret_of_no_sep f.data hf)
  refine ⟨?_, single⟩
  intro segs
  induction segs with
  | nil => intro _; rfl
  | cons s rest ih =>
    intro hall
    cases rest with
    | nil => exact single s (hall s (by simp))
    | cons s2 rest2 =>
      have hs : '/' ∉ s.data := hall s (by simp)
      have ihh := ih (fun x hx => hall x (by simp [hx]))
      apply String.ext
      rw [show joinPath (s :: s2 :: rest2) = s ++ "/" ++ joinPath (s2 :: rest2)
            from rfl,
          show specCaretJoin (s :: s2 :: rest2)
              = s ++ "^" ++ specCaretJoin (s2 :: rest2) from rfl]
      have hdata := congrArg String.data ihh
      rw [getFlattenedFileName_data] at hdata
      simp only [getFlattenedFileName_data, String.data_append, List.map_append]
      rw [map_sepToCaret_of_no_sep s.data hs, hdata]
      rfl

/-- C3 witness: the theorem evaluated on the path a/b/c.ext and on the
    root-level file root.txt. -/
theorem C3_witness :
    ((∀ s ∈ (["a", "b", "c.ext"] : List String), '/' ∉ s.data) ∧
      getFlattenedFileName (joinPath ["a", "b", "c.ext"]) =
        specCaretJoin ["a", "b", "c.ext"]) ∧
    ('/' ∉ ("root.txt" : String).data ∧
      getFlattenedFileName "root.txt" = "root.txt") :=
  ⟨⟨by decide, C3_flatten_replaces_separators.1 _ (by decide)⟩,
   ⟨by decide, C3_flatten_replaces_separators.2 _ (by decide)⟩⟩

/-- C5 counterexample: the flattened names of two distinct walked files can
    collide as soon as a file name contains the caret delimiter itself: a
    root with directory a containing b.txt next to a root-level file named
    a^b.txt walks to two distinct paths with equal flattened names. -/
theorem C5_counterexample :
    walkDirectory collisionTree [] [] (fun _ => false) [] [] =
      .ok [["a", "b.txt"], ["a^b.txt"]] ∧
    (["a", "b.txt"] : List String) ≠ ["a^b.txt"] ∧
    getFlattenedFileName (joinPath ["a", "b.txt"]) =
      getFlattenedFileName (joinPath ["a^b.txt"]) :=
  ⟨rfl, by decide, rfl⟩

/-- C5 amended: distinct root-relative paths keep distinct flattened names
    provided neither path contains the caret delimiter; when a source name
    contains a caret, collisions are possible and the copy loop of
    flattenProject silently overwrites. -/
theorem C5_amended_flatten_injective_without_caret :
    ∀ s₁ s₂ : String, '^' ∉ s₁.data → '^' ∉ s₂.data → s₁ ≠ s₂ →
      getFlattenedFileName s₁ ≠ getFlattenedFileName s₂ := by
  intro s₁ s₂ h₁ h₂ hne heq
  apply hne
  apply String.ext
  apply map_sepToCaret_inj _ _ h₁ h₂
  exact congrArg String.data heq

/-- C5 witness: the amended theorem evaluated on the distinct paths a/b and
    a/c. -/
theorem C5_witness :
    '^' ∉ ("a/b" : String).data ∧ '^' ∉ ("a/c" : String).data ∧
    ("a/b" : String) ≠ "a/c" ∧
    getFlattenedFileName "a/b" ≠ getFlattenedFileName "a/c" :=
  ⟨by decide, by decide, by decide,
    C5_amended_flatten_injective_without_caret "a/b" "a/c"
      (by decide) (by decide) (by decide)⟩

/-- Dropping the length of a nonempty suffix from a concatenation leaves the
    prefix, as the slice call in flattenProject does. -/
theorem jsSliceNegEnd_append (stem ext : String) (h : ext ≠ "") :
    jsSliceNegEnd (stem ++ ext) ext.length = stem := by
  have hlen : ext.length ≠ 0 := by
    intro h0
    apply h
    have hd : ext.data = [] := List.length_eq_zero.mp h0
    exact String.ext (by simp [hd])
  unfold jsSliceNegEnd
  rw [if_neg hlen]
  apply String.ext
  show ((stem ++ ext).data.take ((stem ++ ext).data.length - ext.length)) = stem.data
  rw [String.data_append, List.length_append,
    show ext.length = ext.data.length from rfl, Nat.add_sub_cancel]
  exact List.take_left stem.data ext.data

/-- C9: for every file whose flattened name carries a configured toTxt
    extension, the flatten output name is the flattened name with that
    extension replaced by .txt, applied after delimiter substitution
    (a/b/c.ext with .ext configured yields a^b^c.txt, never a^b^c.ext.txt);
    files whose extension is not configured keep their flattened name
    unchanged.  Configured extensions carry a leading dot, so the matched
    extension is nonempty. -/
theorem C9_toTxt_extension_remap :
    ∀ (toTxtExtensions : List String) (rel stem ext : String),
      getFlattenedFileName rel = stem ++ ext →
      ext ≠ "" →
      extname (stem ++ ext) = ext →
      (toTxtExtensions.contains ext = true →
        flattenOutputName toTxtExtensions rel = stem ++ ".txt") ∧
      (toTxtExtensions.contains ext = false →
        flattenOutputName toTxtExtensions rel = stem ++ ext) := by
  intro toTxt rel stem ext hflat hne hext
  unfold flattenOutputName
  rw [hflat]
  dsimp only
  rw [hext]
  constructor
  · intro hc
    rw [hc]
    simp [jsSliceNegEnd_append stem ext hne]
  · intro hc
    rw [hc]
    simp

/-- C9 witness: the theorem evaluated on a/b/c.ext, once with .ext configured
    and once with only .vue configured. -/
theorem C9_witness :
    (getFlattenedFileName "a/b/c.ext" = "a^b^c" ++ ".ext" ∧
      (".ext" : String) ≠ "" ∧ extname ("a^b^c" ++ ".ext") = ".ext") ∧
    flattenOutputName [".ext"] "a/b/c.ext" = "a^b^c" ++ ".txt" ∧
    flattenOutputName [".vue"] "a/b/c.ext" = "a^b^c" ++ ".ext" :=
  ⟨⟨by decide, by decide, by decide⟩,
    (C9_toTxt_extension_remap [".ext"] "a/b/c.ext" "a^b^c" ".ext"
      (by decide) (by decide) (by decide)).1 (by decide),
    (C9_toTxt_extension_remap [".vue"] "a/b/c.ext" "a^b^c" ".ext"
      (by decide) (by decide) (by decide)).2 (by decide)⟩

/-- Threading an accumulator through the concatenation loop only prepends
    it. -/
theorem concatLoop_acc (root : FSNode) (ps : List (List String)) :
    ∀ acc : String, concatLoop root ps acc = acc ++ concatLoop root ps "" := by
  induction ps with
  | nil => intro acc; simp [concatLoop]
  | cons q rest ih =>
    intro acc
    simp only [concatLoop]
    rw [ih (acc ++ fileBlock root q), ih ("" ++ fileBlock root q),
      String.empty_append, String.append_assoc]

/-- The text concatenateFiles writes for a concatenation of file lists is the
    concatenation of the texts for the parts. -/
theorem concatenateFiles_append (root : FSNode) (ps qs : List (List String)) :
    concatenateFiles root (ps ++ qs) =
      concatenateFiles root ps ++ concatenateFiles root qs := by
  unfold concatenateFiles
  induction ps with
  | nil => simp [concatLoop]
  | cons q rest ih =>
    simp only [List.cons_append, concatLoop]
    show concatLoop root (rest ++ qs) ("" ++ fileBlock root q) =
      concatLoop root rest ("" ++ fileBlock root q) ++ concatLoop root qs ""
    rw [concatLoop_acc root (rest ++ qs), concatLoop_acc root rest, ih]
    simp [String.append_assoc]

/-- The text concatenateFiles writes for a single file is its block. -/
theorem concatenateFiles_single (root : FSNode) (q : List String) :
    concatenateFiles root [q] = fileBlock root q := by
  simp [concatenateFiles, concatLoop]

/-- C4 counterexample: the write loop of concatenateFiles emits the blank-line
    separator before every header, including the first one, so the artifact
    begins with a newline — the claim excepts the stream start, which the code
    does not. -/
theorem C4_counterexample :
    walkDirectory concatExampleTree [] [] (fun _ => false) []
        (concatActionExcludeFiles []) =
      .ok [["src", "a.js"], ["b.txt"]] ∧
    concatenateFiles concatExampleTree [["src", "a.js"], ["b.txt"]] =
      "\n=== src/a.js ===\nhello\n\n=== b.txt ===\nworld\n" ∧
    ("\n=== src/a.js ===\nhello\n\n=== b.txt ===\nworld\n" : String) ≠
      "=== src/a.js ===\nhello\n\n=== b.txt ===\nworld\n" :=
  ⟨rfl, rfl, by decide⟩

/-- C4 amended: the concatenated artifact is exactly, for each walked file in
    traversal order, a blank-line separator before the header — including at
    the stream start, so the artifact begins with a newline — then the header
    line, then the content, then a trailing newline appended exactly when the
    content does not already end in one; the example root with src/a.js
    (hello) and b.txt (world) yields the artifact with the two blocks and no
    data loss. -/
theorem C4_amended_concat_blocks :
    (∀ (root : FSNode) (ps qs : List (List String)),
      concatenateFiles root (ps ++ qs) =
        concatenateFiles root ps ++ concatenateFiles root qs) ∧
    (∀ (root : FSNode) (q : List String) (content : String),
      readFileAt root q = .ok content →
      concatenateFiles root [q] =
        "\n=== " ++ joinPath q ++ " ===\n" ++
          (content ++ (if endsWithNewline content then "" else "\n"))) ∧
    (walkDirectory concatExampleTree [] [] (fun _ => false) []
        (concatActionExcludeFiles []) = .ok [["src", "a.js"], ["b.txt"]] ∧
      concatenateFiles concatExampleTree [["src", "a.js"], ["b.txt"]] =
        "\n=== src/a.js ===\nhello\n\n=== b.txt ===\nworld\n") := by
  refine ⟨concatenateFiles_append, ?_, rfl, rfl⟩
  intro root q content hread
  rw [concatenateFiles_single, fileBlock, hread]

/-- C4 witness: the content conjunct of the amended theorem evaluated on the
    file src/a.js of the example root. -/
theorem C4_witness :
    readFileAt concatExampleTree ["src", "a.js"] = .ok "hello" ∧
    concatenateFiles concatExampleTree [["src", "a.js"]] =
      "\n=== " ++ joinPath ["src", "a.js"] ++ " ===\n" ++
        ("hello" ++ (if endsWithNewline "hello" then "" else "\n")) :=
  ⟨rfl, C4_amended_concat_blocks.2.1 concatExampleTree ["src", "a.js"]
    "hello" rfl⟩

/-- C6: during concatenation, every file that cannot be read is caught
    per-file: its header line is still emitted, the inline marker
    [Error reading file: msg] is written in place of the content, and the loop
    continues with the remaining files, whose output is unchanged. -/
theorem C6_per_file_error_marker :
    ∀ (root : FSNode) (ps₁ : List (List String)) (q : List String)
      (ps₂ : List (List String)) (msg : String),
      readFileAt root q = .error msg →
      concatenateFiles root (ps₁ ++ q :: ps₂) =
        concatenateFiles root ps₁ ++
          ("\n=== " ++ joinPath q ++ " ===\n" ++
            ("[Error reading file: " ++ msg ++ "]\n")) ++
          concatenateFiles root ps₂ := by
  intro root ps₁ q ps₂ msg hread
  rw [show ps₁ ++ q :: ps₂ = ps₁ ++ [q] ++ ps₂ by simp,
    concatenateFiles_append, concatenateFiles_append,
    concatenateFiles_single, fileBlock, hread]

/-- C6 witness: the theorem evaluated on a root whose file bad.txt throws on
    read, followed by a readable file. -/
theorem C6_witness :
    readFileAt errorFileTree ["bad.txt"] =
      .error "EACCES: permission denied, open" ∧
    concatenateFiles errorFileTree ([] ++ ["bad.txt"] :: [["ok.txt"]]) =
      concatenateFiles errorFileTree [] ++
        ("\n=== " ++ joinPath ["bad.txt"] ++ " ===\n" ++
          ("[Error reading file: " ++ "EACCES: permission denied, open" ++
            "]\n")) ++
        concatenateFiles errorFileTree [["ok.txt"]] :=
  ⟨rfl, C6_per_file_error_marker errorFileTree [] ["bad.txt"] [["ok.txt"]]
    "EACCES: permission denied, open" rfl⟩

/-- Unfolding equation for the entry loop on an empty listing. -/
theorem walkEntries_nil_eq (p : List String) (fl : List (List String))
    (ig : String → Bool) (exD exF : List String) :
    walkEntries .nil p fl ig exD exF = .ok fl := rfl

/-- Unfolding equation for the entry loop on a nonempty listing. -/
theorem walkEntries_cons_eq (name : String) (node : FSNode) (rest : EntryList)
    (p : List String) (fl : List (List String)) (ig : String → Bool)
    (exD exF : List String) :
    walkEntries (.cons name node rest) p fl ig exD exF =
      if name = "flatbrain" then walkEntries rest p fl ig exD exF
      else if name = ".git" then walkEntries rest p fl ig exD exF
      else if node.isDirectory && exD.contains name then
        walkEntries rest p fl ig exD exF
      else if node.isFile && exF.contains name then
        walkEntries rest p fl ig exD exF
      else if ig (joinPath (p ++ [name])) then
        walkEntries rest p fl ig exD exF
      else if node.isDirectory then
        match walkDirectory node (p ++ [name]) fl ig exD exF with
        | .error e => .error e
        | .ok newList => walkEntries rest p newList ig exD exF
      else walkEntries rest p (fl ++ [p ++ [name]]) ig exD exF := rfl

/-- Unfolding equation for allowedPath on an empty path. -/
theorem allowedPath_nil_eq (ig : String → Bool) (exD exF : List String)
    (node : FSNode) (p : List String) :
    allowedPath ig exD exF node p [] = false := by
  cases node <;> rfl

/-- Unfolding equation for allowedPath below a directory. -/
theorem allowedPath_dir_cons_eq (ig : String → Bool) (exD exF : List String)
    (entries : EntryList) (p : List String) (n : String) (rest : List String) :
    allowedPath ig exD exF (.dir entries) p (n :: rest) =
      (match lookupEntry entries n with
       | none => false
       | some nd =>
         passCommon ig p n &&
           (match rest with
            | [] => !nd.isDirectory && !(nd.isFile && exF.contains n)
            | _ :: _ => nd.isDirectory && !(exD.contains n) &&
                allowedPath ig exD exF nd (p ++ [n]) rest)) := rfl

/-- Unfolding equation for resolveNode below a directory. -/
theorem resolveNode_dir_cons (entries : EntryList) (n : String)
    (rest : List String) :
    resolveNode (.dir entries) (n :: rest) =
      (match lookupEntry entries n with
       | some nd => resolveNode nd rest
       | none => none) := rfl

/-- A successful lookup means the name occurs in the listing. -/
theorem lookupEntry_some_mem : ∀ (es : EntryList) (m : String) (nd : FSNode),
    lookupEntry es m = some nd → (entryNames es).contains m = true
  | .nil, m, nd, h => by simp [lookupEntry] at h
  | .cons n node rest, m, nd, h => by
    rw [lookupEntry] at h
    by_cases hn : n = m
    · simp [entryNames, hn]
    · rw [if_neg hn] at h
      have hrec := lookupEntry_some_mem rest m nd h
      simp only [entryNames]
      simp only [List.contains_cons, Bool.or_eq_true]
      right
      exact hrec

/-- A path allowed below a listing stays allowed when an entry with a fresh
    name is put in front of the listing. -/
theorem allowedPath_cons_tail (ig : String → Bool) (exD exF : List String)
    (name : String) (node : FSNode) (rest : EntryList) (p q : List String)
    (hn : (entryNames rest).contains name = false)
    (h : allowedPath ig exD exF (.dir rest) p q = true) :
    allowedPath ig exD exF (.dir (.cons name node rest)) p q = true := by
  cases q with
  | nil => rw [allowedPath_nil_eq] at h; exact absurd h (by simp)
  | cons n tail =>
    rw [allowedPath_dir_cons_eq] at h
    rw [allowedPath_dir_cons_eq]
    cases hl : lookupEntry rest n with
    | none => rw [hl] at h; simp at h
    | some nd =>
      rw [hl] at h
      have hmem := lookupEntry_some_mem rest n nd hl
      have hne : name ≠ n := by
        intro he
        rw [he] at hn
        rw [hn] at hmem
        exact Bool.noConfusion hmem
      rw [show lookupEntry (.cons name node rest) n = some nd by
        rw [lookupEntry, if_neg hne, hl]]
      exact h

/-- Soundness of the entry loop: every path in a successful walk of a
    well-formed listing was already in the accumulator, or extends the current
    directory by a path every step of which passed the exclusion checks. -/
theorem walkEntries_sound :
    ∀ (entries : EntryList) (p : List String) (fl : List (List String))
      (ig : String → Bool) (exD exF : List String) (out : List (List String)),
      wellFormed (.dir entries) = true →
      walkEntries entries p fl ig exD exF = .ok out →
      ∀ q ∈ out, q ∈ fl ∨ ∃ rest, rest ≠ [] ∧ q = p ++ rest ∧
        allowedPath ig exD exF (.dir entries) p rest = true := by
  suffices H : ∀ (k : Nat) (entries : EntryList), entriesSize entries ≤ k →
      ∀ (p : List String) (fl : List (List String)) (ig : String → Bool)
        (exD exF : List String) (out : List (List String)),
        wellFormed (.dir entries) = true →
        walkEntries entries p fl ig exD exF = .ok out →
        ∀ q ∈ out, q ∈ fl ∨ ∃ rest, rest ≠ [] ∧ q = p ++ rest ∧
          allowedPath ig exD exF (.dir entries) p rest = true by
    intro entries
    exact H (entriesSize entries) entries (le_refl _)
  intro k
  induction k using Nat.strong_induction_on with
  | _ k IH =>
    intro entries hsz p fl ig exD exF out hwf hwalk q hq
    cases entries with
    | nil =>
      rw [walkEntries_nil_eq] at hwalk
      injection hwalk with hwalk
      left
      rw [← hwalk] at hq
      exact hq
    | cons name node rest =>
      have hwf2 := hwf
      simp only [wellFormed, wfEntries, entryNames, nodupBool,
        Bool.and_eq_true, Bool.not_eq_true'] at hwf2
      obtain ⟨⟨h1, h2⟩, h3, h4⟩ := hwf2
      have hwfrest : wellFormed (.dir rest) = true := by
        simp [wellFormed, h2, h4]
      have hsz2 : entriesSize (.cons name node rest) ≤ k := hsz
      rw [show entriesSize (.cons name node rest)
            = 1 + nodeSize node + entriesSize rest from rfl] at hsz2
      have hszrest : entriesSize rest < k := by omega
      have hIHrest := IH (entriesSize rest) hszrest rest (le_refl _)
      have skip : walkEntries rest p fl ig exD exF = .ok out →
          q ∈ fl ∨ ∃ r, r ≠ [] ∧ q = p ++ r ∧
            allowedPath ig exD exF (.dir (.cons name node rest)) p r = true := by
        intro hw
        rcases hIHrest p fl ig exD exF out hwfrest hw q hq with hfl
          | ⟨r, hr1, hr2, hr3⟩
        · exact Or.inl hfl
        · exact Or.inr ⟨r, hr1, hr2,
            allowedPath_cons_tail ig exD exF name node rest p r h1 hr3⟩
      rw [walkEntries_cons_eq] at hwalk
      by_cases hfb : name = "flatbrain"
      · rw [if_pos hfb] at hwalk; exact skip hwalk
      rw [if_neg hfb] at hwalk
      by_cases hgit : name = ".git"
      · rw [if_pos hgit] at hwalk; exact skip hwalk
      rw [if_neg hgit] at hwalk
      cases hdx : node.isDirectory && exD.contains name with
      | true => rw [if_pos hdx] at hwalk; exact skip hwalk
      | false =>
      rw [if_neg (by rw [hdx]; exact Bool.false_ne_true)] at hwalk
      cases hfx : node.isFile && exF.contains name with
      | true => rw [if_pos hfx] at hwalk; exact skip hwalk
      | false =>
      rw [if_neg (by rw [hfx]; exact Bool.false_ne_true)] at hwalk
      cases hig : ig (joinPath (p ++ [name])) with
      | true => rw [if_pos hig] at hwalk; exact skip hwalk
      | false =>
      rw [if_neg (by rw [hig]; exact Bool.false_ne_true)] at hwalk
      have hpc : passCommon ig p name = true := by
        simp [passCommon, hfb, hgit, hig]
      cases hdir : node.isDirectory with
      | false =>
        rw [if_neg (by rw [hdir]; exact Bool.false_ne_true)] at hwalk
        rcases hIHrest p (fl ++ [p ++ [name]]) ig exD exF out hwfrest hwalk q hq
          with hfl2 | ⟨r, hr1, hr2, hr3⟩
        · rcases List.mem_append.mp hfl2 with hfl3 | hq2
          · exact Or.inl hfl3
          · have hqeq : q = p ++ [name] := by simpa using hq2
            refine Or.inr ⟨[name], by simp, hqeq, ?_⟩
            rw [allowedPath_dir_cons_eq,
              show lookupEntry (.cons name node rest) name = some node from by
                rw [lookupEntry, if_pos rfl]]
            dsimp only
            rw [hpc, hdir, hfx]
            rfl
        · exact Or.inr ⟨r, hr1, hr2,
            allowedPath_cons_tail ig exD exF name node rest p r h1 hr3⟩
      | true =>
        rw [if_pos hdir] at hwalk
        cases hsub : walkDirectory node (p ++ [name]) fl ig exD exF with
        | error e => rw [hsub] at hwalk; exact Except.noConfusion hwalk
        | ok newList =>
          rw [hsub] at hwalk
          rcases hIHrest p newList ig exD exF out hwfrest hwalk q hq
            with hnew | ⟨r, hr1, hr2, hr3⟩
          · cases node with
            | file c => simp [FSNode.isDirectory] at hdir
            | symlink => simp [FSNode.isDirectory] at hdir
            | unlistableDir m =>
              rw [show walkDirectory (.unlistableDir m) (p ++ [name]) fl ig exD exF
                    = .error m from rfl] at hsub
              exact Except.noConfusion hsub
            | dir es =>
              have hsub2 : walkEntries es (p ++ [name]) fl ig exD exF =
                  .ok newList := hsub
              have hszes : entriesSize es < k := by
                rw [show nodeSize (.dir es) = 1 + entriesSize es from rfl] at hsz2
                omega
              rcases IH (entriesSize es) hszes es (le_refl _) (p ++ [name]) fl
                  ig exD exF newList h3 hsub2 q hnew
                with hfl2 | ⟨r, hrne, hreq, hallow⟩
              · exact Or.inl hfl2
              · have hdx2 : exD.contains name = false := by
                  rw [show FSNode.isDirectory (.dir es) = true from rfl] at hdx
                  simpa using hdx
                refine Or.inr ⟨name :: r, by simp, by rw [hreq]; simp, ?_⟩
                rw [allowedPath_dir_cons_eq,
                  show lookupEntry (.cons name (.dir es) rest) name
                      = some (.dir es) from by rw [lookupEntry, if_pos rfl]]
                cases r with
                | nil => exact absurd rfl hrne
                | cons r0 rs =>
                  have hdx3 : name ∉ exD := by simpa using hdx2
                  simp only [hpc, Bool.true_and]
                  simp [FSNode.isDirectory, hdx3, hallow]
          · exact Or.inr ⟨r, hr1, hr2,
              allowedPath_cons_tail ig exD exF name node rest p r h1 hr3⟩

/-- Soundness of walkDirectory: as walkEntries_sound, at the node itself. -/
theorem walkDirectory_sound (node : FSNode) (p : List String)
    (fl : List (List String)) (ig : String → Bool) (exD exF : List String)
    (out : List (List String)) (hwf : wellFormed node = true)
    (h : walkDirectory node p fl ig exD exF = .ok out) :
    ∀ q ∈ out, q ∈ fl ∨ ∃ rest, rest ≠ [] ∧ q = p ++ rest ∧
      allowedPath ig exD exF node p rest = true := by
  cases node with
  | dir es => exact walkEntries_sound es p fl ig exD exF out hwf h
  | unlistableDir m => exact Except.noConfusion h
  | file c => exact Except.noConfusion h
  | symlink => exact Except.noConfusion h

/-- allowedPath is false below a regular file. -/
theorem allowedPath_file_eq (ig : String → Bool) (exD exF : List String)
    (c : Except String String) (p : List String) (n : String)
    (rest : List String) :
    allowedPath ig exD exF (.file c) p (n :: rest) = false := rfl

/-- allowedPath is false below a symbolic link. -/
theorem allowedPath_symlink_eq (ig : String → Bool) (exD exF : List String)
    (p : List String) (n : String) (rest : List String) :
    allowedPath ig exD exF .symlink p (n :: rest) = false := rfl

/-- allowedPath is false below an unlistable directory. -/
theorem allowedPath_unlistable_eq (ig : String → Bool) (exD exF : List String)
    (m : String) (p : List String) (n : String) (rest : List String) :
    allowedPath ig exD exF (.unlistableDir m) p (n :: rest) = false := rfl

/-- Resolving the empty path yields the node itself. -/
theorem resolveNode_nil (node : FSNode) : resolveNode node [] = some node := by
  cases node <;> rfl

/-- A true Boolean negation means the underlying Boolean is false. -/
theorem bool_not_true {b : Bool} (h : (!b) = true) : b = false := by
  simpa using h

/-- An entry that passed the common checks is not matched by the ignore
    predicate. -/
theorem passCommon_ig (ig : String → Bool) (p : List String) (n : String)
    (h : passCommon ig p n = true) : ig (joinPath (p ++ [n])) = false := by
  simp only [passCommon, Bool.and_eq_true, Bool.not_eq_true'] at h
  exact h.2

/-- Every step of an allowed path resolves in the tree and passed the checks
    of its kind: intermediate steps are non-excluded directories, the final
    step a non-directory not excluded by excludeFiles. -/
theorem allowedPath_prefix_spec :
    ∀ (pre : List String) (node : FSNode) (p : List String) (n : String)
      (suf : List String) (ig : String → Bool) (exD exF : List String),
      allowedPath ig exD exF node p (pre ++ n :: suf) = true →
      ∃ nd, resolveNode node (pre ++ [n]) = some nd ∧
        ig (joinPath (p ++ pre ++ [n])) = false ∧
        (suf = [] → nd.isDirectory = false ∧
          (nd.isFile && exF.contains n) = false) ∧
        (suf ≠ [] → nd.isDirectory = true ∧ exD.contains n = false) := by
  intro pre
  induction pre with
  | nil =>
    intro node p n suf ig exD exF h
    rw [List.nil_append] at h
    cases node with
    | file c => rw [allowedPath_file_eq] at h; exact Bool.noConfusion h
    | symlink => rw [allowedPath_symlink_eq] at h; exact Bool.noConfusion h
    | unlistableDir m =>
      rw [allowedPath_unlistable_eq] at h; exact Bool.noConfusion h
    | dir entries =>
      rw [allowedPath_dir_cons_eq] at h
      cases hl : lookupEntry entries n with
      | none => rw [hl] at h; exact Bool.noConfusion h
      | some nd =>
        rw [hl] at h
        rcases (Bool.and_eq_true _ _).mp h with ⟨hp, hrest⟩
        refine ⟨nd, ?_, ?_, ?_, ?_⟩
        · rw [List.nil_append, resolveNode_dir_cons, hl]
          dsimp only
          exact resolveNode_nil nd
        · rw [List.append_nil]
          exact passCommon_ig ig p n hp
        · intro hse
          rw [hse] at hrest
          rcases (Bool.and_eq_true _ _).mp hrest with ⟨hA1, hA2⟩
          exact ⟨bool_not_true hA1, bool_not_true hA2⟩
        · intro hsne
          cases suf with
          | nil => exact absurd rfl hsne
          | cons s0 ss =>
            rcases (Bool.and_eq_true _ _).mp hrest with ⟨hB1, _⟩
            rcases (Bool.and_eq_true _ _).mp hB1 with ⟨hB2, hB3⟩
            exact ⟨hB2, bool_not_true hB3⟩
  | cons m pre2 ih =>
    intro node p n suf ig exD exF h
    rw [List.cons_append] at h
    cases node with
    | file c => rw [allowedPath_file_eq] at h; exact Bool.noConfusion h
    | symlink => rw [allowedPath_symlink_eq] at h; exact Bool.noConfusion h
    | unlistableDir mm =>
      rw [allowedPath_unlistable_eq] at h; exact Bool.noConfusion h
    | dir entries =>
      rw [allowedPath_dir_cons_eq] at h
      cases hl : lookupEntry entries m with
      | none => rw [hl] at h; exact Bool.noConfusion h
      | some nd1 =>
        rw [hl] at h
        rcases hsp : pre2 ++ n :: suf with _ | ⟨r0, rs⟩
        · exact absurd hsp (by simp)
        · rw [hsp] at h
          rcases (Bool.and_eq_true _ _).mp h with ⟨hpcm, hbody⟩
          rcases (Bool.and_eq_true _ _).mp hbody with ⟨hB1, hrec⟩
          rw [← hsp] at hrec
          obtain ⟨nd, hres, hig2, hA, hB⟩ := ih nd1 (p ++ [m]) n suf ig exD exF hrec
          refine ⟨nd, ?_, ?_, hA, hB⟩
          · rw [List.cons_append, resolveNode_dir_cons, hl]
            exact hres
          · rw [show p ++ (m :: pre2) ++ [n] = (p ++ [m]) ++ pre2 ++ [n] by simp]
            exact hig2

/-- A regular file is not a directory. -/
theorem isFile_isDirectory_false (nd : FSNode) (h : nd.isFile = true) :
    nd.isDirectory = false := by
  cases nd <;> simp [FSNode.isFile, FSNode.isDirectory] at h ⊢

/-- C1: for every directory entry that the exclusion decision marks as
    excluded — by an excludeDirs name match or by an ignore-pattern match on
    its root-relative path — the walk does not open the directory: no path of
    the walked file list lies in its subtree, even when a descendant matches
    no exclusion rule itself.  The flatten copy loop and concatenateFiles
    iterate over exactly this list, so the subtree reaches neither output. -/
theorem C1_excluded_dir_subtree_unreachable :
    ∀ (root : FSNode) (ig : String → Bool) (exD exF : List String)
      (out : List (List String)) (d₀ : List String) (n : String) (nd : FSNode),
      wellFormed root = true →
      walkDirectory root [] [] ig exD exF = .ok out →
      resolveNode root (d₀ ++ [n]) = some nd →
      nd.isDirectory = true →
      (exD.contains n = true ∨ ig (joinPath (d₀ ++ [n])) = true) →
      ∀ q ∈ out, ¬ (d₀ ++ [n]) <+: q := by
  intro root ig exD exF out d₀ n nd hwf hwalk hres hdir hexc q hq hpre
  rcases walkDirectory_sound root [] [] ig exD exF out hwf hwalk q hq with hfl
    | ⟨r, hrne, hreq, hallow⟩
  · exact absurd hfl (List.not_mem_nil q)
  · rw [List.nil_append] at hreq
    rw [← hreq] at hallow
    obtain ⟨t, ht⟩ := hpre
    have hq2 : q = d₀ ++ n :: t := by rw [← ht]; simp
    rw [hq2] at hallow
    obtain ⟨nd2, hres2, hig2, hA, hB⟩ :=
      allowedPath_prefix_spec d₀ root [] n t ig exD exF hallow
    have hnd : nd = nd2 := by
      rw [hres] at hres2
      exact Option.some.inj hres2
    cases t with
    | nil =>
      obtain ⟨hdf, _⟩ := hA rfl
      rw [← hnd] at hdf
      rw [hdir] at hdf
      exact Bool.noConfusion hdf
    | cons t0 ts =>
      obtain ⟨_, hdx⟩ := hB (by simp)
      cases hexc with
      | inl hx =>
        rw [hx] at hdx
        exact Bool.noConfusion hdx
      | inr hx =>
        rw [List.nil_append] at hig2
        rw [hx] at hig2
        exact Bool.noConfusion hig2

/-- C1 witness: the theorem evaluated on a root whose directory node_modules
    is excluded by name while holding the deep descendant pkg/deep.js. -/
theorem C1_witness :
    wellFormed excludedDirTree = true ∧
    walkDirectory excludedDirTree [] [] (fun _ => false) ["node_modules"] [] =
      .ok [["keep.js"]] ∧
    ∀ q ∈ [[("keep.js" : String)]], ¬ ([] ++ ["node_modules"]) <+: q :=
  ⟨by decide, rfl,
    C1_excluded_dir_subtree_unreachable excludedDirTree (fun _ => false)
      ["node_modules"] [] [["keep.js"]] [] "node_modules"
      (.dir (.cons "pkg" (.dir (.cons "deep.js" (.file (.ok "d")) .nil)) .nil))
      (by decide) rfl rfl rfl (Or.inl (by decide))⟩

/-- C2: name-based exclusion is an independent exclude vote above the
    ignore-pattern result: an entry whose name is in excludeDirs (for a
    directory) or excludeFiles (for a regular file) is excluded for every
    possible ignore predicate — in particular a gitignore negation pattern,
    which only shapes the ignore predicate, can never bring back an entry
    excluded by name, and nothing reaches its subtree. -/
theorem C2_name_exclusion_beats_ignore :
    ∀ (root : FSNode) (ig : String → Bool) (exD exF : List String)
      (out : List (List String)) (d₀ : List String) (n : String) (nd : FSNode),
      wellFormed root = true →
      walkDirectory root [] [] ig exD exF = .ok out →
      resolveNode root (d₀ ++ [n]) = some nd →
      ((nd.isDirectory = true ∧ exD.contains n = true) ∨
        (nd.isFile = true ∧ exF.contains n = true)) →
      ∀ q ∈ out, ¬ (d₀ ++ [n]) <+: q := by
  intro root ig exD exF out d₀ n nd hwf hwalk hres hexc q hq hpre
  rcases walkDirectory_sound root [] [] ig exD exF out hwf hwalk q hq with hfl
    | ⟨r, hrne, hreq, hallow⟩
  · exact absurd hfl (List.not_mem_nil q)
  · rw [List.nil_append] at hreq
    rw [← hreq] at hallow
    obtain ⟨t, ht⟩ := hpre
    have hq2 : q = d₀ ++ n :: t := by rw [← ht]; simp
    rw [hq2] at hallow
    obtain ⟨nd2, hres2, hig2, hA, hB⟩ :=
      allowedPath_prefix_spec d₀ root [] n t ig exD exF hallow
    have hnd : nd = nd2 := by
      rw [hres] at hres2
      exact Option.some.inj hres2
    cases t with
    | nil =>
      obtain ⟨hdf, hff⟩ := hA rfl
      rw [← hnd] at hdf hff
      cases hexc with
      | inl hx =>
        rw [hx.1] at hdf
        exact Bool.noConfusion hdf
      | inr hx =>
        rw [hx.1, hx.2] at hff
        exact Bool.noConfusion hff
    | cons t0 ts =>
      obtain ⟨hdt, hdx⟩ := hB (by simp)
      rw [← hnd] at hdt
      cases hexc with
      | inl hx =>
        rw [hx.2] at hdx
        exact Bool.noConfusion hdx
      | inr hx =>
        rw [isFile_isDirectory_false nd hx.1] at hdt
        exact Bool.noConfusion hdt

/-- C2 witness: the theorem evaluated with an ignore predicate that never
    ignores — the outcome a gitignore made of negation patterns produces —
    while the file yarn.lock is excluded by name. -/
theorem C2_witness :
    wellFormed lockfileTree = true ∧
    walkDirectory lockfileTree [] [] (fun _ => false) [] ["yarn.lock"] =
      .ok [["index.js"]] ∧
    ∀ q ∈ [[("index.js" : String)]], ¬ ([] ++ ["yarn.lock"]) <+: q :=
  ⟨by decide, rfl,
    C2_name_exclusion_beats_ignore lockfileTree (fun _ => false) []
      ["yarn.lock"] [["index.js"]] [] "yarn.lock" (.file (.ok "lock"))
      (by decide) rfl rfl (Or.inr ⟨rfl, by decide⟩)⟩

/-- A regular file whose name the excludeFiles set holds never appears in the
    walked list. -/
theorem walk_excluded_file_not_mem (root : FSNode) (ig : String → Bool)
    (exD exF : List String) (out : List (List String)) (q₀ : List String)
    (n : String) (nd : FSNode) (hwf : wellFormed root = true)
    (hwalk : walkDirectory root [] [] ig exD exF = .ok out)
    (hres : resolveNode root (q₀ ++ [n]) = some nd)
    (hfile : nd.isFile = true) (hex : exF.contains n = true) :
    (q₀ ++ [n]) ∉ out := by
  intro hq
  rcases walkDirectory_sound root [] [] ig exD exF out hwf hwalk _ hq with hfl
    | ⟨r, hrne, hreq, hallow⟩
  · exact absurd hfl (List.not_mem_nil _)
  · rw [List.nil_append] at hreq
    rw [← hreq] at hallow
    obtain ⟨nd2, hres2, _, hA, _⟩ :=
      allowedPath_prefix_spec q₀ root [] n [] ig exD exF hallow
    have hnd : nd = nd2 := by
      rw [hres] at hres2
      exact Option.some.inj hres2
    obtain ⟨_, hff⟩ := hA rfl
    rw [← hnd, hfile, hex] at hff
    exact Bool.noConfusion hff

/-- C8: invoked with no user-supplied exclusions, both the flatten and the
    concat command seed excludeFiles with the default lockfile names, so
    every regular file named yarn.lock, package-lock.json or pnpm-lock.yaml,
    anywhere in the tree, is excluded from the walked list both commands
    consume. -/
theorem C8_lockfiles_excluded_by_default :
    ∀ (root : FSNode) (ig : String → Bool) (out₁ out₂ : List (List String))
      (q₀ : List String) (n : String) (nd : FSNode),
      wellFormed root = true →
      n ∈ DEFAULT_LOCKFILES →
      resolveNode root (q₀ ++ [n]) = some nd →
      nd.isFile = true →
      walkDirectory root [] [] ig [] (flattenActionExcludeFiles []) =
        .ok out₁ →
      walkDirectory root [] [] ig [] (concatActionExcludeFiles []) =
        .ok out₂ →
      (q₀ ++ [n]) ∉ out₁ ∧ (q₀ ++ [n]) ∉ out₂ := by
  intro root ig out₁ out₂ q₀ n nd hwf hmem hres hfile hw₁ hw₂
  have hex₁ : (flattenActionExcludeFiles []).contains n = true := by
    simpa [flattenActionExcludeFiles] using hmem
  have hex₂ : (concatActionExcludeFiles []).contains n = true := by
    simpa [concatActionExcludeFiles] using hmem
  exact ⟨walk_excluded_file_not_mem root ig [] _ out₁ q₀ n nd hwf hw₁ hres
      hfile hex₁,
    walk_excluded_file_not_mem root ig [] _ out₂ q₀ n nd hwf hw₂ hres
      hfile hex₂⟩

/-- C8 witness: the theorem evaluated on a root holding yarn.lock next to
    index.js, with no user exclusions. -/
theorem C8_witness :
    wellFormed lockfileTree = true ∧
    ("yarn.lock" : String) ∈ DEFAULT_LOCKFILES ∧
    walkDirectory lockfileTree [] [] (fun _ => false) []
      (flattenActionExcludeFiles []) = .ok [["index.js"]] ∧
    walkDirectory lockfileTree [] [] (fun _ => false) []
      (concatActionExcludeFiles []) = .ok [["index.js"]] ∧
    ([] ++ ["yarn.lock"]) ∉ [[("index.js" : String)]] ∧
    ([] ++ ["yarn.lock"]) ∉ [[("index.js" : String)]] := by
  refine ⟨by decide, by decide, rfl, rfl, ?_, ?_⟩ <;>
  · have := C8_lockfiles_excluded_by_default lockfileTree (fun _ => false)
      [["index.js"]] [["index.js"]] [] "yarn.lock" (.file (.ok "lock"))
      (by decide) (by decide) rfl rfl rfl rfl
    exact this.1

/-- C10: name-based exclusion is kind-sensitive at every entry — excludeDirs
    is consulted only for directory entries and excludeFiles only for regular
    files.  So a directory named like an excludeFiles entry (for example
    yarn.lock) is still traversed and its content collected, a file named
    like an excludeDirs entry is still collected, and an entry that is
    neither a regular file nor a directory (a symbolic link) is excluded by
    neither name set even when both hold its name. -/
theorem C10_kind_sensitive_name_exclusion :
    (∀ (p : List String) (fl : List (List String)) (ig : String → Bool)
       (exD exF : List String) (n c : String) (r : Except String String),
       n ≠ "flatbrain" → n ≠ ".git" → exD.contains n = false →
       exF.contains n = true → ig (joinPath (p ++ [n])) = false →
       c ≠ "flatbrain" → c ≠ ".git" → exF.contains c = false →
       ig (joinPath (p ++ [n, c])) = false →
       walkEntries (.cons n (.dir (.cons c (.file r) .nil)) .nil) p fl ig
           exD exF =
         .ok (fl ++ [p ++ [n] ++ [c]])) ∧
    (∀ (p : List String) (fl : List (List String)) (ig : String → Bool)
       (exD exF : List String) (m : String) (r : Except String String),
       m ≠ "flatbrain" → m ≠ ".git" → exD.contains m = true →
       exF.contains m = false → ig (joinPath (p ++ [m])) = false →
       walkEntries (.cons m (.file r) .nil) p fl ig exD exF =
         .ok (fl ++ [p ++ [m]])) ∧
    (∀ (p : List String) (fl : List (List String)) (ig : String → Bool)
       (exD exF : List String) (s : String),
       s ≠ "flatbrain" → s ≠ ".git" → exD.contains s = true →
       exF.contains s = true → ig (joinPath (p ++ [s])) = false →
       walkEntries (.cons s .symlink .nil) p fl ig exD exF =
         .ok (fl ++ [p ++ [s]])) := by
  refine ⟨?_, ?_, ?_⟩
  · intro p fl ig exD exF n c r hfb hgit hdx hfxn hig hcfb hcgit hfxc higc
    rw [walkEntries_cons_eq, if_neg hfb, if_neg hgit,
      if_neg (by simp only [FSNode.isDirectory, Bool.true_and]; simpa using hdx),
      if_neg (by simp [FSNode.isFile]),
      if_neg (by simp [hig]),
      if_pos (show FSNode.isDirectory (.dir _) = true from rfl)]
    rw [show walkDirectory (.dir (.cons c (.file r) .nil)) (p ++ [n]) fl ig
          exD exF
        = walkEntries (.cons c (.file r) .nil) (p ++ [n]) fl ig exD exF
        from rfl]
    rw [walkEntries_cons_eq, if_neg hcfb, if_neg hcgit,
      if_neg (by simp [FSNode.isDirectory]),
      if_neg (by simp only [FSNode.isFile, Bool.true_and]; simpa using hfxc),
      if_neg (by simp [higc]),
      if_neg (by simp [FSNode.isDirectory])]
    rw [walkEntries_nil_eq]
    dsimp only
    rw [walkEntries_nil_eq]
  · intro p fl ig exD exF m r hfb hgit hdx hfx hig
    rw [walkEntries_cons_eq, if_neg hfb, if_neg hgit,
      if_neg (by simp [FSNode.isDirectory]),
      if_neg (by simp only [FSNode.isFile, Bool.true_and]; simpa using hfx),
      if_neg (by simp [hig]),
      if_neg (by simp [FSNode.isDirectory]),
      walkEntries_nil_eq]
  · intro p fl ig exD exF s hfb hgit hdx hfx hig
    rw [walkEntries_cons_eq, if_neg hfb, if_neg hgit,
      if_neg (by simp [FSNode.isDirectory]),
      if_neg (by simp [FSNode.isFile]),
      if_neg (by simp [hig]),
      if_neg (by simp [FSNode.isDirectory]),
      walkEntries_nil_eq]

/-- C10 witness: the theorem evaluated on a directory named yarn.lock (with
    yarn.lock in excludeFiles), a file named distdir (with distdir in
    excludeDirs), and a symbolic link named weird (with weird in both). -/
theorem C10_witness :
    walkEntries (.cons "yarn.lock" (.dir (.cons "inner.js"
        (.file (.ok "x")) .nil)) .nil) [] [] (fun _ => false) ["distdir"]
        ["yarn.lock"] =
      .ok ([] ++ [[] ++ ["yarn.lock"] ++ ["inner.js"]]) ∧
    walkEntries (.cons "distdir" (.file (.ok "y")) .nil) [] []
        (fun _ => false) ["distdir"] ["yarn.lock"] =
      .ok ([] ++ [[] ++ ["distdir"]]) ∧
    walkEntries (.cons "weird" .symlink .nil) [] [] (fun _ => false)
        ["distdir", "weird"] ["yarn.lock", "weird"] =
      .ok ([] ++ [[] ++ ["weird"]]) :=
  ⟨C10_kind_sensitive_name_exclusion.1 [] [] (fun _ => false) ["distdir"]
      ["yarn.lock"] "yarn.lock" "inner.js" (.ok "x") (by decide) (by decide)
      (by decide) (by decide) rfl (by decide) (by decide) (by decide) rfl,
    C10_kind_sensitive_name_exclusion.2.1 [] [] (fun _ => false) ["distdir"]
      ["yarn.lock"] "distdir" (.ok "y") (by decide) (by decide) (by decide)
      (by decide) rfl,
    C10_kind_sensitive_name_exclusion.2.2 [] [] (fun _ => false)
      ["distdir", "weird"] ["yarn.lock", "weird"] "weird" (by decide)
      (by decide) (by decide) (by decide) rfl⟩

/-- C7 counterexample: a traversal in which an entry is a symbolic link does
    not abort — the walk of a root whose only entry is a symbolic link
    succeeds and collects the link itself as a file path. -/
theorem C7_counterexample :
    walkDirectory symlinkTree [] [] (fun _ => false) [] [] =
      .ok [["link"]] := rfl

/-- C7 amended: when a directory cannot be listed the walk fails fast — the
    readdirSync error aborts the entire run, whatever entries would have
    followed, with no best-effort continuation.  A symbolic-link entry,
    however, does not abort the walk: it is treated as a non-directory entry,
    pushed onto the file list, and traversal continues. -/
theorem C7_amended_fail_fast_unlistable_only :
    (∀ (name msg : String) (rest : EntryList) (p : List String)
       (fl : List (List String)) (ig : String → Bool) (exD exF : List String),
       name ≠ "flatbrain" → name ≠ ".git" → exD.contains name = false →
       ig (joinPath (p ++ [name])) = false →
       walkEntries (.cons name (.unlistableDir msg) rest) p fl ig exD exF =
         .error msg) ∧
    (∀ (name : String) (rest : EntryList) (p : List String)
       (fl : List (List String)) (ig : String → Bool) (exD exF : List String),
       name ≠ "flatbrain" → name ≠ ".git" →
       ig (joinPath (p ++ [name])) = false →
       walkEntries (.cons name .symlink rest) p fl ig exD exF =
         walkEntries rest p (fl ++ [p ++ [name]]) ig exD exF) := by
  constructor
  · intro name msg rest p fl ig exD exF hfb hgit hdx hig
    rw [walkEntries_cons_eq, if_neg hfb, if_neg hgit,
      if_neg (by simp only [FSNode.isDirectory, Bool.true_and]; simpa using hdx),
      if_neg (by simp [FSNode.isFile]),
      if_neg (by simp [hig]),
      if_pos (show FSNode.isDirectory (.unlistableDir msg) = true from rfl)]
    rfl
  · intro name rest p fl ig exD exF hfb hgit hig
    rw [walkEntries_cons_eq, if_neg hfb, if_neg hgit,
      if_neg (by simp [FSNode.isDirectory]),
      if_neg (by simp [FSNode.isFile]),
      if_neg (by simp [hig]),
      if_neg (by simp [FSNode.isDirectory])]

/-- C7 witness: the amended theorem evaluated on an unlistable directory named
    secret followed by another entry, and on a symbolic link named link. -/
theorem C7_witness :
    walkEntries (.cons "secret" (.unlistableDir "EACCES: permission denied")
        (.cons "after.js" (.file (.ok "a")) .nil)) [] [] (fun _ => false)
        [] [] =
      .error "EACCES: permission denied" ∧
    walkEntries (.cons "link" .symlink .nil) [] [] (fun _ => false) [] [] =
      walkEntries .nil [] ([] ++ [[] ++ ["link"]]) (fun _ => false) [] [] :=
  ⟨C7_amended_fail_fast_unlistable_only.1 "secret" "EACCES: permission denied"
      (.cons "after.js" (.file (.ok "a")) .nil) [] [] (fun _ => false) [] []
      (by decide) (by decide) (by decide) rfl,
    C7_amended_fail_fast_unlistable_only.2 "link" .nil [] [] (fun _ => false)
      [] [] (by decide) (by decide) rfl⟩

end Flatbrain
